import Mathlib

/-!
Verification development for the meme-stitching video service
(`src/server.js` and the sibling variants under `src/unnamed/`): a shallow
embedding of the filter-graph escaping, text-layout, filter-graph building
and audio-mix planning logic, together with theorems checking the
specification's claims against the code.

Modelling conventions:
* strings are `List Char` (`Str`);
* JavaScript `Math.floor(a / b)` on non-negative integer operands is `Nat`
  division (exact for every realistic operand size);
* the float comparison `cjkCount > text.length * 0.3` is the integer
  comparison `3 * length < 10 * cjkCount`, which agrees with it at every
  value the theorems below touch (in particular at `cjkCount = 0`);
* fallible or stateful surroundings (downloads, probes, the HTTP layer)
  are out of scope, exactly as in the specification.

The file is organised as: definitions (generic string utilities, the
embeddings of the source functions, and the spec-modelled engine parser),
then helper lemmas, then one theorem per claim.
-/

set_option autoImplicit false

abbrev Str := List Char

/-- Concatenation map over the characters of a string.  This is the shape
shared by every `String.prototype.replace` call in the sources: all the
patterns are single characters with the global flag, so each call replaces
every occurrence of one character independently. -/
def cmap (f : Char → Str) : Str → Str
  | [] => []
  | c :: t => f c ++ cmap f t

/-- `s.replace(/c/g, r)` for a single-character pattern `c`. -/
def replaceChar (c : Char) (r : Str) : Str → Str :=
  cmap (fun a => if a = c then r else [a])

/-- Prepend a character to the first piece of a split result. -/
def consHead (c : Char) : List Str → List Str
  | [] => [[c]]
  | l :: ls => (c :: l) :: ls

/-- Split a string at every character satisfying `p`, keeping empty
pieces — the behaviour of JavaScript `String.prototype.split` with a
single-character separator (with `p` the equality test for it). -/
def splitOnP (p : Char → Bool) : Str → List Str
  | [] => [[]]
  | c :: t => if p c then [] :: splitOnP p t else consHead c (splitOnP p t)

/-- Join pieces with a single separator character — the inverse of
`splitOnP` for a single-character separator. -/
def intercalateCh (c : Char) : List Str → Str
  | [] => []
  | [l] => l
  | l :: ls => l ++ c :: intercalateCh c ls

/-- The ASCII whitespace characters recognised by JavaScript
`String.prototype.trim` (the Unicode ones play no role here). -/
def jsWsChar (c : Char) : Bool :=
  c == ' ' || c == '\t' || c == '\n' || c == '\r' || c == '\x0b' || c == '\x0c'

/-- Remove trailing whitespace: the right half of `trim`, written
structurally so that proofs can follow the recursion. -/
def dropEndWs : Str → Str
  | [] => []
  | c :: t =>
    let r := dropEndWs t
    if r.isEmpty && jsWsChar c then [] else c :: r

/-- JavaScript `String.prototype.trim`: remove leading and trailing
whitespace. -/
def jsTrim (s : Str) : Str := dropEndWs (s.dropWhile jsWsChar)

/-- The separator characters the wrapping pipeline actually produces and
consumes: space and newline. -/
def wsSN (c : Char) : Bool := c == ' ' || c == '\n'

/-- The whitespace-delimited, non-empty words of a string: the word
sequence the wrap step is expected to preserve. -/
def wordsOf (t : Str) : List Str :=
  (splitOnP wsSN t).filter (fun w => !w.isEmpty)

namespace Server

/-- `escapeForDrawtext` from `src/server.js` lines 243-268: eight
sequential global replacements — backslash (to four backslashes), single
quote (to quote, four backslashes, two quotes), colon, `[`, `]`, comma and
semicolon (each to two backslashes plus the character), and finally
newline (to backslash-`n`).  The JavaScript guard `if (!text) return ''`
is subsumed: the empty string maps to the empty string. -/
def escapeForDrawtext (text : Str) : Str :=
  let e1 := replaceChar '\\' ['\\', '\\', '\\', '\\'] text
  let e2 := replaceChar '\'' ['\'', '\\', '\\', '\\', '\\', '\'', '\''] e1
  let e3 := replaceChar ':' ['\\', '\\', ':'] e2
  let e4 := replaceChar '[' ['\\', '\\', '['] e3
  let e5 := replaceChar ']' ['\\', '\\', ']'] e4
  let e6 := replaceChar ',' ['\\', '\\', ','] e5
  let e7 := replaceChar ';' ['\\', '\\', ';'] e6
  replaceChar '\n' ['\\', 'n'] e7

/-- The character table of `escapeForDrawtext` read off from the source:
what a single original character becomes in the output. -/
def escTable (a : Char) : Str :=
  if a = '\\' then ['\\', '\\', '\\', '\\']
  else if a = '\'' then ['\'', '\\', '\\', '\\', '\\', '\'', '\'']
  else if a = ':' then ['\\', '\\', ':']
  else if a = '[' then ['\\', '\\', '[']
  else if a = ']' then ['\\', '\\', ']']
  else if a = ',' then ['\\', '\\', ',']
  else if a = ';' then ['\\', '\\', ';']
  else if a = '\n' then ['\\', 'n']
  else [a]

/-- The CJK test used by `wrapText` in `src/server.js` line 195/206: the
character class `[一-鿿぀-ゟ゠-ヿ가-힯]`. -/
def isCJKchar (c : Char) : Bool :=
  (decide (0x4E00 ≤ c.toNat) && decide (c.toNat ≤ 0x9FFF)) ||
  (decide (0x3040 ≤ c.toNat) && decide (c.toNat ≤ 0x309F)) ||
  (decide (0x30A0 ≤ c.toNat) && decide (c.toNat ≤ 0x30FF)) ||
  (decide (0xAC00 ≤ c.toNat) && decide (c.toNat ≤ 0xD7AF))

/-- The word loop of `wrapText`'s Latin branch, `src/server.js` lines
221-233: greedily append each word plus a trailing space, breaking the
line first when the running length would exceed the budget and the line
is non-empty. -/
def wrapLatinLoop (maxChars : Nat) : List Str → Nat → Str
  | [], _ => []
  | w :: ws, cll =>
    if maxChars < cll + w.length + 1 ∧ 0 < cll then
      '\n' :: (w ++ ' ' :: wrapLatinLoop maxChars ws (w.length + 1))
    else
      w ++ ' ' :: wrapLatinLoop maxChars ws (cll + w.length + 1)

/-- The character loop of `wrapText`'s CJK branch, `src/server.js` lines
200-216: CJK characters count as visual width 2, a break is inserted when
the running width would exceed the adjusted budget. -/
def wrapCJKLoop (adjustedMax : Nat) : Str → Nat → Str
  | [], _ => []
  | c :: t, cur =>
    let w := if isCJKchar c then 2 else 1
    if adjustedMax < cur + w ∧ 0 < cur then
      '\n' :: c :: wrapCJKLoop adjustedMax t w
    else
      c :: wrapCJKLoop adjustedMax t (cur + w)

/-- `wrapText` from `src/server.js` lines 191-237: empty input maps to the
empty string; text that is more than 30% CJK wraps at character
boundaries with visual widths and budget `floor(maxCharsPerLine * 0.6)`;
otherwise the text is split on spaces and words are packed greedily; the
result is trimmed. -/
def wrapText (text : Str) (maxCharsPerLine : Nat) : Str :=
  if text = [] then []
  else
    let cjkCount := (text.filter isCJKchar).length
    if 3 * text.length < 10 * cjkCount then
      jsTrim (wrapCJKLoop (maxCharsPerLine * 6 / 10) text 0)
    else
      jsTrim (wrapLatinLoop maxCharsPerLine (splitOnP (fun a => a == ' ') text) 0)

/-- The caption-line extraction of `addMemeText`, `src/server.js` lines
283-287: wrap at budget 45, split on newlines, keep only lines whose trim
is non-empty (JavaScript truthiness of `line.trim()`). -/
def captionLines (text : Str) : List Str :=
  (splitOnP (fun a => a == '\n') (wrapText text 45)).filter
    (fun l => !(jsTrim l).isEmpty)

end Server

/-- Prepend a word to the first group of a grouping. -/
def consHeadG (w : Str) : List (List Str) → List (List Str)
  | [] => [[w]]
  | g :: gs => (w :: g) :: gs

/-- The greedy word grouping underlying `wrapLatinLoop`: the same
recursion, but recording which words land on which line instead of
rendering the text.  Proof artefact, not part of the source. -/
def greedyGroups (maxChars : Nat) : List Str → Nat → List (List Str)
  | [], _ => [[]]
  | w :: ws, cll =>
    if maxChars < cll + w.length + 1 ∧ 0 < cll then
      [] :: consHeadG w (greedyGroups maxChars ws (w.length + 1))
    else
      consHeadG w (greedyGroups maxChars ws (cll + w.length + 1))

/-- Render one greedy group the way the loop writes it: each word followed
by one space. -/
def lineRender : List Str → Str
  | [] => []
  | w :: g => w ++ ' ' :: lineRender g

/-- Render a group list the way the loop writes it: lines joined by
newlines. -/
def renderGroups (gs : List (List Str)) : Str :=
  intercalateCh '\n' (gs.map lineRender)

/-- Total rendered length of a group: word lengths plus one per word. -/
def sumLen : List Str → Nat
  | [] => 0
  | w :: g => w.length + 1 + sumLen g

/-- Append a character to the last piece of a split result (the effect of
appending a non-separator character to the split string). -/
def appendLast (c : Char) : List Str → List Str
  | [] => [[c]]
  | [l] => [l ++ [c]]
  | l :: ls => l :: appendLast c ls

/-- A greedily formed line either fits the budget or is a single word that
alone already exceeds it. -/
def FreshGroupOK (maxChars : Nat) (g : List Str) : Prop :=
  sumLen g ≤ maxChars ∨ ∃ w, g = [w] ∧ maxChars < w.length + 1

/-- What claim C8 asserts of every output line: after trimming it fits
the budget, or it consists of exactly one over-long word. -/
def LineOK (maxChars : Nat) (l : Str) : Prop :=
  (jsTrim l).length ≤ maxChars ∨ ∃ w, wordsOf l = [w] ∧ maxChars < w.length

/-- A word produced by splitting on spaces contains no space, and its only
possible whitespace character is a newline. -/
def WordOK (w : Str) : Prop :=
  ∀ c ∈ w, c ≠ ' ' ∧ (jsWsChar c = true → c = '\n')

namespace Server

/-- One stage of the filter graph built by `addMemeText`
(`src/server.js` lines 344-443), carrying exactly the data the source
interpolates into its template strings: the `movie` source stage (output
label only — its path is the constant overlay image), the image `overlay`
stage, and a text-draw stage with its input label, escaped text, font
size, vertical position and output label. -/
inductive FilterPart where
  | movie (out : Str)
  | overlayImg (in1 in2 : Str) (x y : Int) (out : Str)
  | drawtext (inp : Str) (text : Str) (fontsize : Nat) (y : Int) (out : Str)
deriving DecidableEq

/-- Input labels consumed by a stage. -/
def FilterPart.inputsOf : FilterPart → List Str
  | .movie _ => []
  | .overlayImg i1 i2 _ _ _ => [i1, i2]
  | .drawtext i _ _ _ _ => [i]

/-- Output label produced by a stage. -/
def FilterPart.outputOf : FilterPart → Str
  | .movie o => o
  | .overlayImg _ _ _ _ o => o
  | .drawtext _ _ _ _ o => o

/-- Whether a stage is a text-draw stage. -/
def FilterPart.isDrawtext : FilterPart → Bool
  | .drawtext _ _ _ _ _ => true
  | _ => false

/-- The text parameter of a text-draw stage (empty for other stages). -/
def FilterPart.textOf : FilterPart → Str
  | .drawtext _ t _ _ _ => t
  | _ => []

/-- The generated video labels `v2`, `v3`, … of `addMemeText`. -/
def natLabel (n : Nat) : Str := 'v' :: Nat.toDigits 10 n

/-- The per-line text-draw loop of `addMemeText` (`src/server.js` lines
360-382 for the top block, 390-412 for the bottom block): one stage per
line, threading the previous stage's output label into the next stage's
input, with the y position advancing by one line height per line and the
label counter increasing by one per stage.  Returns the stages, the final
current label, and the final counter. -/
def drawChain (fontSize lineHeight : Nat) :
    List Str → Str → Nat → Int → List FilterPart × Str × Nat
  | [], cur, counter, _ => ([], cur, counter)
  | line :: rest, cur, counter, y =>
    let next := natLabel counter
    let r := drawChain fontSize lineHeight rest next (counter + 1) (y + lineHeight)
    (FilterPart.drawtext cur (escapeForDrawtext line) fontSize y next :: r.1, r.2)

/-- The branding text of `addMemeText`, `src/server.js` line 417:
`luna.fun/memes` when no project name is given (JavaScript truthiness),
otherwise `luna.fun/memes/<projectName>`. -/
def brandingText (projectName : Str) : Str :=
  if projectName.isEmpty then "luna.fun/memes".toList
  else "luna.fun/memes/".toList ++ projectName

/-- `dynamicDivisor` of `addMemeText`, `src/server.js` lines 290-292:
`baseDivisor + (maxLines - 1) * verticalCompressionFactor` with the
calibrated constants 12 and 2. -/
def dynamicDivisor (maxLines : Nat) : Nat := 12 + (maxLines - 1) * 2

/-- The font size computation of `addMemeText`, `src/server.js` line 294:
`Math.floor(height / dynamicDivisor)`. -/
def fontSizeOf (height maxLines : Nat) : Nat := height / dynamicDivisor maxLines

/-- The line count entering the divisor, `src/server.js` line 288:
`needsMemeText ? Math.max(top, bottom, 1) : 1`. -/
def maxLinesOf (topText bottomText : Str) : Nat :=
  if topText.isEmpty && bottomText.isEmpty then 1
  else max (max (captionLines topText).length (captionLines bottomText).length) 1

/-- The first two stages of `addMemeText`'s graph, `src/server.js` lines
345-351: load the overlay image (`movie=…[overlay]`) and composite it
onto the raw video input (`[0:v][overlay]overlay=x:y[v1]`) at the bottom
centre (`x = floor((width - ow) / 2)`, `y = height - oh`, with `ow`/`oh`
the probed overlay image dimensions). -/
def baseParts (width height ow oh : Nat) : List FilterPart :=
  [FilterPart.movie ("overlay".toList),
   FilterPart.overlayImg ("0:v".toList) ("overlay".toList)
     (Int.fdiv ((width : Int) - (ow : Int)) 2) ((height : Int) - (oh : Int))
     ("v1".toList)]

/-- The top-caption chain of `addMemeText`, `src/server.js` lines
357-383: emitted only when `topText` is truthy, reading from `v1`, with
label counter starting at 2 and y positions from `verticalOffset = 20`. -/
def topChainOf (fontSize lineHeight : Nat) (topText : Str) :
    List FilterPart × Str × Nat :=
  if topText.isEmpty then (([] : List FilterPart), "v1".toList, 2)
  else drawChain fontSize lineHeight (captionLines topText) ("v1".toList) 2 20

/-- The bottom-caption chain of `addMemeText`, `src/server.js` lines
386-413: emitted only when `bottomText` is truthy, continuing from the
current label and counter, with y positions from
`height - totalBottomHeight - 100`. -/
def bottomChainOf (fontSize lineHeight height : Nat) (bottomText : Str)
    (cur : Str) (counter : Nat) : List FilterPart × Str × Nat :=
  if bottomText.isEmpty then (([] : List FilterPart), cur, counter)
  else
    drawChain fontSize lineHeight (captionLines bottomText) cur counter
      ((height : Int) -
        (((captionLines bottomText).length * lineHeight : Nat) : Int) - 100)

/-- The branding stage of `addMemeText`, `src/server.js` lines 416-438:
always emitted, reading from the current label, font size 18,
`y = height - 18 - 20`, output label `vout`. -/
def brandingStage (height : Nat) (projectName : Str) (cur : Str) : FilterPart :=
  FilterPart.drawtext cur (escapeForDrawtext (brandingText projectName)) 18
    ((height : Int) - 38) ("vout".toList)

/-- The filter-graph construction of `addMemeText`, `src/server.js` lines
344-443: the base compositing stages, the top caption chain, the bottom
caption chain, and the branding stage, with `vout` the sink label the
source then maps to the output (`-map [vout]`). -/
def buildMemeFilter (width height ow oh : Nat)
    (topText bottomText projectName : Str) : List FilterPart × Str :=
  let fontSize := fontSizeOf height (maxLinesOf topText bottomText)
  let lineHeight := fontSize + 5
  let top := topChainOf fontSize lineHeight topText
  let bottom := bottomChainOf fontSize lineHeight height bottomText top.2.1 top.2.2
  (baseParts width height ow oh ++
      (top.1 ++ (bottom.1 ++ [brandingStage height projectName bottom.2.1])),
    "vout".toList)

/-- Label-threading check: every input label of every stage must already
be available (a raw input or an earlier stage's output) at the point the
stage appears; each stage then adds its own output label. -/
def wellThreadedB (avail : List Str) : List FilterPart → Bool
  | [] => true
  | p :: ps =>
    (p.inputsOf.all fun l => decide (l ∈ avail)) &&
      wellThreadedB (p.outputOf :: avail) ps

/-- The labels available after a stage list has run. -/
def availAfter (avail : List Str) : List FilterPart → List Str
  | [] => avail
  | p :: ps => availAfter (p.outputOf :: avail) ps

/-- The single-track audio operation of `mixVideo`,
`src/server.js` lines 536-544: volume attenuation for music, plain copy
for dialogue. -/
inductive AudioStageOp where
  | volumeOp (gain : ℚ)
  | acopy
deriving DecidableEq

/-- The audio half of the filter graph built by `mixVideo`,
`src/server.js` lines 519-557. -/
inductive AudioMix where
  | noMix
  | single (input : Str) (op : AudioStageOp) (out : Str)
  | merged (inputs : List Str) (n : Nat) (out : Str)
deriving DecidableEq

/-- Whether the audio graph contains a multi-input mix (amerge). -/
def AudioMix.isMultiMix : AudioMix → Bool
  | .merged _ _ _ => true
  | _ => false

/-- The stream label `[i:a]` for audio input `i`. -/
def audioLabel (i : Nat) : Str := '[' :: (Nat.toDigits 10 i ++ ":a]".toList)

/-- `mixVideo`'s audio filter construction, `src/server.js` lines 519-557
(the source names the dialogue flag `hasAudio` after its `audioPath`
argument): dialogue is input 1 when present, music input 2 after dialogue
or 1 alone; a single audio input is passed through alone — `volume=0.3`
for music, `acopy` for dialogue — and only two inputs produce
`amerge=inputs=2`, with the volume applied to the music input. -/
def mixVideoFilter (hasDialogue hasMusic : Bool) : AudioMix :=
  let filterInputs :=
    (if hasDialogue then [audioLabel 1] else []) ++
    (if hasMusic then [audioLabel (if hasDialogue then 2 else 1)] else [])
  if filterInputs.length = 0 then AudioMix.noMix
  else if filterInputs.length = 1 then
    if hasMusic then
      AudioMix.single (filterInputs.headD []) (AudioStageOp.volumeOp (3/10))
        ("outa".toList)
    else
      AudioMix.single (filterInputs.headD []) AudioStageOp.acopy ("outa".toList)
  else AudioMix.merged filterInputs filterInputs.length ("outa".toList)

/-- The request fields destructured by `processVideoRequest`,
`src/server.js` lines 618-626: the complete caller-visible input surface
of the endpoint. -/
def processVideoRequestFields : List Str :=
  ["final_stitched_video".toList, "final_dialogue".toList,
   "final_music_url".toList, "meme_top_text".toList,
   "meme_bottom_text".toList, "meme_project_name".toList,
   "meme_language".toList]

end Server

namespace P001

/-- The audio-mix plan built by `mixVideo` in `src/unnamed/part_001`
lines 330-421: the duration parameter of the `amix` stage when one is
emitted, the fade parameters of the music track, and the output options
passed to the engine. -/
structure MixPlan where
  amixDuration : Option Str
  fadeInDuration : Option ℚ
  fadeOutDuration : Option ℚ
  fadeOutStart : Option ℚ
  outputOptions : List Str
deriving DecidableEq

/-- `mixVideo` from `src/unnamed/part_001` lines 330-421.  With dialogue
and music it emits `amix=inputs=2:duration=longest` plus the `-shortest`
output flag; with music alone it fades the music (no mix stage) plus
`-shortest`; with dialogue alone it maps the dialogue directly; with
neither it stream-copies.  In both music branches
`fadeOutStart = musicDuration - fadeOutDuration` with no clamping. -/
def mixVideo (hasDialogue hasMusic : Bool) (musicDuration : ℚ) : MixPlan :=
  if hasDialogue && hasMusic then
    { amixDuration := some ("longest".toList)
      fadeInDuration := some (5/2)
      fadeOutDuration := some (5/2)
      fadeOutStart := some (musicDuration - 5/2)
      outputOptions :=
        ["-map 0:v".toList, "-map [aout]".toList, "-c:v copy".toList,
         "-c:a aac".toList, "-shortest".toList] }
  else if hasDialogue then
    { amixDuration := none
      fadeInDuration := none
      fadeOutDuration := none
      fadeOutStart := none
      outputOptions :=
        ["-map 0:v".toList, "-map 1:a".toList, "-c:v copy".toList,
         "-c:a aac".toList] }
  else if hasMusic then
    { amixDuration := none
      fadeInDuration := some (5/2)
      fadeOutDuration := some (5/2)
      fadeOutStart := some (musicDuration - 5/2)
      outputOptions :=
        ["-map 0:v".toList, "-map [aout]".toList, "-c:v copy".toList,
         "-c:a aac".toList, "-shortest".toList] }
  else
    { amixDuration := none
      fadeInDuration := none
      fadeOutDuration := none
      fadeOutStart := none
      outputOptions := ["-c:v copy".toList, "-c:a copy".toList] }

end P001

/-- Modelled from the spec: the target engine's tokenizer for option
values in the filter mini-language.  The spec describes the mini-language
as using single-quote-delimited literals, backslash escapes, and colon as
the parameter separator; the tokenizer scans the input once, where a
backslash escapes the following character, a single quote opens a region
in which every character (backslash included) is literal until the closing
quote, and an unescaped, unquoted terminator character ends the value.
Leading/trailing whitespace trimming is not modelled (no claim touches
it). -/
def engineTok (term : List Char) : Bool → Str → Str
  | true, [] => []
  | true, c :: rest =>
    if c = '\'' then engineTok term false rest else c :: engineTok term true rest
  | false, [] => []
  | false, '\\' :: c :: rest => c :: engineTok term false rest
  | false, c :: rest =>
    if c = '\'' then engineTok term true rest
    else if c ∈ term then []
    else c :: engineTok term false rest

/-- Modelled from the spec: the text-expansion pass the engine's text-draw
primitive applies to its already-tokenized text value, in which a
backslash escapes the following character (expansion functions are not
modelled; no claim uses them). -/
def drawtextExpand : Str → Str
  | [] => []
  | '\\' :: c :: rest => c :: drawtextExpand rest
  | c :: rest => c :: drawtextExpand rest

/-- Modelled from the spec: parsing an escaped text payload with the
target engine's quoting/escaping rules.  The builder embeds the payload as
`text='<payload>'` inside the graph description, so parsing wraps the
payload in single quotes and then applies the engine's documented levels:
the graph-description level (terminators `[`, `]`, `,`, `;`), the
filter-option level (terminator `:`), and the text-draw expansion pass. -/
def engineParse (escaped : Str) : Str :=
  let wrapped := '\'' :: (escaped ++ ['\''])
  let graphLevel := engineTok ['[', ']', ',', ';'] false wrapped
  let optLevel := engineTok [':'] false graphLevel
  drawtextExpand optLevel

/-- Modelled from the spec: the four-substitution escape process claim C2
describes — backslash, then single quote, then colon, then newline, each
substitution acting only on characters of the original text.  Stated as a
single character-wise pass, which is exactly that process. -/
def fourPassTable (a : Char) : Str :=
  if a = '\\' then ['\\', '\\', '\\', '\\']
  else if a = '\'' then ['\'', '\\', '\\', '\\', '\\', '\'', '\'']
  else if a = ':' then ['\\', '\\', ':']
  else if a = '\n' then ['\\', 'n']
  else [a]

/-- Modelled from the spec: the result of the four substitutions of claim
C2, in order, acting on original characters only. -/
def fourPassEscape : Str → Str := cmap fourPassTable

/-! ### Helper lemmas: `cmap` and the escaper -/

theorem cmap_append (f : Char → Str) :
    ∀ x y : Str, cmap f (x ++ y) = cmap f x ++ cmap f y := by
  intro x y
  induction x with
  | nil => rfl
  | cons c t ih => simp [cmap, ih]

theorem cmap_ne_nil {f : Char → Str} (hf : ∀ a, f a ≠ []) :
    ∀ {t : Str}, t ≠ [] → cmap f t ≠ [] := by
  intro t ht
  match t with
  | [] => exact absurd rfl ht
  | c :: t => simp [cmap]; intro h _; exact hf c h

theorem replaceChar_single (c : Char) (r : Str) (a : Char) :
    replaceChar c r [a] = if a = c then r else [a] := by
  simp [replaceChar, cmap]

namespace Server

theorem escapeForDrawtext_append (x y : Str) :
    escapeForDrawtext (x ++ y) = escapeForDrawtext x ++ escapeForDrawtext y := by
  simp only [escapeForDrawtext, replaceChar, cmap_append]

theorem escapeForDrawtext_single (a : Char) :
    escapeForDrawtext [a] = escTable a := by
  by_cases h1 : a = '\\'
  · subst h1; decide
  by_cases h2 : a = '\''
  · subst h2; decide
  by_cases h3 : a = ':'
  · subst h3; decide
  by_cases h4 : a = '['
  · subst h4; decide
  by_cases h5 : a = ']'
  · subst h5; decide
  by_cases h6 : a = ','
  · subst h6; decide
  by_cases h7 : a = ';'
  · subst h7; decide
  by_cases h8 : a = '\n'
  · subst h8; decide
  · simp [escapeForDrawtext, replaceChar_single, escTable,
      h1, h2, h3, h4, h5, h6, h7, h8]

/-- Sequential replacement coincides with a single character-wise pass:
no later replacement ever rewrites characters introduced by an earlier
one, because no replacement string contains a later pattern character. -/
theorem escapeForDrawtext_eq_cmap (t : Str) :
    escapeForDrawtext t = cmap escTable t := by
  induction t with
  | nil => rfl
  | cons a t ih =>
    have h : a :: t = [a] ++ t := rfl
    rw [h, escapeForDrawtext_append, escapeForDrawtext_single, ih]
    rfl

theorem escTable_ne_nil (a : Char) : escTable a ≠ [] := by
  unfold escTable
  by_cases h1 : a = '\\' <;> by_cases h2 : a = '\'' <;> by_cases h3 : a = ':' <;>
    by_cases h4 : a = '[' <;> by_cases h5 : a = ']' <;> by_cases h6 : a = ',' <;>
    by_cases h7 : a = ';' <;> by_cases h8 : a = '\n' <;>
    simp [h1, h2, h3, h4, h5, h6, h7, h8]

theorem escapeForDrawtext_ne_nil {t : Str} (ht : t ≠ []) :
    escapeForDrawtext t ≠ [] := by
  rw [escapeForDrawtext_eq_cmap]
  exact cmap_ne_nil escTable_ne_nil ht

end Server

/-! ### Helper lemmas: splitting -/

theorem splitOnP_exists_cons (p : Char → Bool) (t : Str) :
    ∃ w ws, splitOnP p t = w :: ws := by
  induction t with
  | nil => exact ⟨[], [], rfl⟩
  | cons c t ih =>
    by_cases h : p c
    · exact ⟨[], splitOnP p t, by simp [splitOnP, h]⟩
    · obtain ⟨w, ws, hw⟩ := ih
      exact ⟨c :: w, ws, by simp [splitOnP, h, hw, consHead]⟩

theorem consHead_append (c : Char) (l : Str) (ls rest : List Str) :
    consHead c ((l :: ls) ++ rest) = consHead c (l :: ls) ++ rest := rfl

theorem splitOnP_append_sep (p : Char → Bool) {sep : Char} (hsep : p sep = true)
    (x y : Str) : splitOnP p (x ++ sep :: y) = splitOnP p x ++ splitOnP p y := by
  induction x with
  | nil => simp [splitOnP, hsep]
  | cons c x ih =>
    by_cases h : p c
    · simp [splitOnP, h, ih]
    · obtain ⟨w', ws', hw'⟩ := splitOnP_exists_cons p x
      have hcons : splitOnP p ((c :: x) ++ sep :: y)
          = consHead c (splitOnP p (x ++ sep :: y)) := by
        simp [splitOnP, h]
      have hcons2 : splitOnP p (c :: x) = consHead c (splitOnP p x) := by
        simp [splitOnP, h]
      rw [hcons, ih, hw', hcons2, hw']
      exact consHead_append c w' ws' _

theorem length_le_of_mem_splitOnP (p : Char → Bool) :
    ∀ {t l : Str}, l ∈ splitOnP p t → l.length ≤ t.length := by
  intro t
  induction t with
  | nil =>
    intro l hl
    simp [splitOnP] at hl
    simp [hl]
  | cons c t ih =>
    intro l hl
    by_cases h : p c
    · simp [splitOnP, h] at hl
      rcases hl with hl | hl
      · simp [hl]
      · exact le_trans (ih hl) (by simp)
    · obtain ⟨w, ws, hw⟩ := splitOnP_exists_cons p t
      simp [splitOnP, h, hw, consHead] at hl
      rcases hl with hl | hl
      · have hwmem : w ∈ splitOnP p t := by simp [hw]
        have := ih hwmem
        simp [hl]
        omega
      · have hmem : l ∈ splitOnP p t := by simp [hw, hl]
        exact le_trans (ih hmem) (by simp)

theorem mem_of_mem_mem_splitOnP (p : Char → Bool) :
    ∀ {t l : Str}, l ∈ splitOnP p t → ∀ {c : Char}, c ∈ l → c ∈ t := by
  intro t
  induction t with
  | nil =>
    intro l hl c hc
    simp [splitOnP] at hl
    simp [hl] at hc
  | cons a t ih =>
    intro l hl c hc
    by_cases h : p a
    · simp [splitOnP, h] at hl
      rcases hl with hl | hl
      · simp [hl] at hc
      · exact List.mem_cons_of_mem a (ih hl hc)
    · obtain ⟨w, ws, hw⟩ := splitOnP_exists_cons p t
      simp [splitOnP, h, hw, consHead] at hl
      rcases hl with hl | hl
      · subst hl
        rcases List.mem_cons.mp hc with hc | hc
        · simp [hc]
        · have hwmem : w ∈ splitOnP p t := by simp [hw]
          exact List.mem_cons_of_mem a (ih hwmem hc)
      · have hmem : l ∈ splitOnP p t := by simp [hw, hl]
        exact List.mem_cons_of_mem a (ih hmem hc)

theorem no_sep_of_mem_splitOnP (p : Char → Bool) :
    ∀ {t l : Str}, l ∈ splitOnP p t → ∀ {c : Char}, c ∈ l → p c = false := by
  intro t
  induction t with
  | nil =>
    intro l hl c hc
    simp [splitOnP] at hl
    simp [hl] at hc
  | cons a t ih =>
    intro l hl c hc
    by_cases h : p a
    · simp [splitOnP, h] at hl
      rcases hl with hl | hl
      · simp [hl] at hc
      · exact ih hl hc
    · obtain ⟨w, ws, hw⟩ := splitOnP_exists_cons p t
      simp [splitOnP, h, hw, consHead] at hl
      rcases hl with hl | hl
      · subst hl
        rcases List.mem_cons.mp hc with hc | hc
        · subst hc; simpa using h
        · have hwmem : w ∈ splitOnP p t := by simp [hw]
          exact ih hwmem hc
      · have hmem : l ∈ splitOnP p t := by simp [hw, hl]
        exact ih hmem hc

theorem splitOnP_no_sep (p : Char → Bool) :
    ∀ {t : Str}, (∀ c ∈ t, p c = false) → splitOnP p t = [t] := by
  intro t
  induction t with
  | nil => intro _; rfl
  | cons c t ih =>
    intro h
    have hc : p c = false := h c (by simp)
    have ht : splitOnP p t = [t] := ih (fun d hd => h d (by simp [hd]))
    simp [splitOnP, hc, ht, consHead]

theorem intercalateCh_consHead (c a : Char) (w : Str) (ws : List Str) :
    intercalateCh c (consHead a (w :: ws)) = a :: intercalateCh c (w :: ws) := by
  cases ws <;> simp [intercalateCh, consHead]

theorem intercalateCh_splitOnChar (c : Char) :
    ∀ s : Str, intercalateCh c (splitOnP (fun a => a == c) s) = s := by
  intro s
  induction s with
  | nil => rfl
  | cons a s ih =>
    obtain ⟨w, ws, hw⟩ := splitOnP_exists_cons (fun a => a == c) s
    by_cases h : a = c
    · subst h
      simp only [splitOnP, beq_self_eq_true, if_true, hw]
      rw [hw] at ih
      simpa [intercalateCh] using ih
    · have hb : (a == c) = false := by simp [h]
      simp only [splitOnP, hb, Bool.false_eq_true, if_false, hw]
      rw [hw] at ih
      rw [intercalateCh_consHead, ih]

/-! ### Helper lemmas: whitespace, words and trimming -/

theorem wordsOf_nil : wordsOf [] = [] := rfl

theorem wordsOf_cons_ws {c : Char} (h : wsSN c = true) (t : Str) :
    wordsOf (c :: t) = wordsOf t := by
  simp [wordsOf, splitOnP, h]

theorem wordsOf_append_sep {sep : Char} (h : wsSN sep = true) (x y : Str) :
    wordsOf (x ++ sep :: y) = wordsOf x ++ wordsOf y := by
  simp [wordsOf, splitOnP_append_sep wsSN h, List.filter_append]

theorem wordsOf_append_ws {c : Char} (h : wsSN c = true) (x : Str) :
    wordsOf (x ++ [c]) = wordsOf x := by
  simpa [wordsOf_nil] using wordsOf_append_sep h x []

theorem wordsOf_no_ws {t : Str} (h : ∀ c ∈ t, wsSN c = false) (ht : t ≠ []) :
    wordsOf t = [t] := by
  simp [wordsOf, splitOnP_no_sep wsSN h, List.filter, ht]

theorem wordsOf_append_all_ws {x suf : Str} (h : ∀ c ∈ suf, wsSN c = true) :
    wordsOf (x ++ suf) = wordsOf x := by
  induction suf generalizing x with
  | nil => simp
  | cons c suf ih =>
    have hx : x ++ c :: suf = (x ++ [c]) ++ suf := by simp
    rw [hx, ih (fun d hd => h d (by simp [hd])), wordsOf_append_ws (h c (by simp))]

theorem wordsOf_prepend_all_ws {pre x : Str} (h : ∀ c ∈ pre, wsSN c = true) :
    wordsOf (pre ++ x) = wordsOf x := by
  induction pre with
  | nil => rfl
  | cons c pre ih =>
    rw [List.cons_append, wordsOf_cons_ws (h c (by simp)),
      ih (fun d hd => h d (by simp [hd]))]

theorem wsSN_jsWsChar {c : Char} (h : wsSN c = true) : jsWsChar c = true := by
  rcases Bool.or_eq_true_iff.mp h with h1 | h1 <;>
    simp [jsWsChar, eq_of_beq h1]

theorem dropEndWs_all_ws {s : Str} (h : ∀ c ∈ s, jsWsChar c = true) :
    dropEndWs s = [] := by
  induction s with
  | nil => rfl
  | cons c t ih =>
    simp [dropEndWs, ih (fun d hd => h d (by simp [hd])), h c (by simp)]

theorem all_ws_of_dropEndWs_nil :
    ∀ {s : Str}, dropEndWs s = [] → ∀ c ∈ s, jsWsChar c = true := by
  intro s
  induction s with
  | nil => intro _ c hc; simp at hc
  | cons c t ih =>
    intro h d hd
    by_cases hcase : (dropEndWs t).isEmpty && jsWsChar c
    · have h1 : dropEndWs t = [] := by
        have := (Bool.and_eq_true_iff.mp hcase).1
        simpa [List.isEmpty_iff] using this
      have h2 : jsWsChar c = true := (Bool.and_eq_true_iff.mp hcase).2
      rcases List.mem_cons.mp hd with hd | hd
      · subst hd; exact h2
      · exact ih h1 d hd
    · exfalso
      simp only [dropEndWs, hcase, if_false] at h
      simp [Bool.not_eq_true] at hcase
      exact absurd h (by simp)

theorem exists_suffix_dropEndWs (s : Str) :
    ∃ suf, s = dropEndWs s ++ suf ∧ ∀ c ∈ suf, jsWsChar c = true := by
  induction s with
  | nil => exact ⟨[], rfl, by simp⟩
  | cons c t ih =>
    obtain ⟨suf, hsuf, hws⟩ := ih
    by_cases hcase : (dropEndWs t).isEmpty && jsWsChar c
    · refine ⟨c :: t, ?_, ?_⟩
      · simp [dropEndWs, hcase]
      · intro d hd
        have h1 : dropEndWs t = [] := by
          have := (Bool.and_eq_true_iff.mp hcase).1
          simpa [List.isEmpty_iff] using this
        rcases List.mem_cons.mp hd with hd | hd
        · subst hd; exact (Bool.and_eq_true_iff.mp hcase).2
        · exact all_ws_of_dropEndWs_nil h1 d hd
    · refine ⟨suf, ?_, hws⟩
      simp only [dropEndWs, hcase, if_false]
      simpa using hsuf

theorem dropEndWs_append_all_ws {suf : Str} (h : ∀ c ∈ suf, jsWsChar c = true) :
    ∀ x : Str, dropEndWs (x ++ suf) = dropEndWs x := by
  intro x
  induction x with
  | nil => simpa using dropEndWs_all_ws h
  | cons c x ih => simp [dropEndWs, ih]

theorem dropEndWs_length_le (s : Str) : (dropEndWs s).length ≤ s.length := by
  induction s with
  | nil => simp [dropEndWs]
  | cons c t ih =>
    by_cases hcase : (dropEndWs t).isEmpty && jsWsChar c <;>
      simp [dropEndWs, hcase] <;> omega

theorem dropEndWs_no_ws {s : Str} (h : ∀ c ∈ s, jsWsChar c = false) :
    dropEndWs s = s := by
  induction s with
  | nil => rfl
  | cons c t ih =>
    simp [dropEndWs, ih (fun d hd => h d (by simp [hd])), h c (by simp)]

theorem mem_of_mem_dropWhile {p : Char → Bool} :
    ∀ {s : Str} {c : Char}, c ∈ s.dropWhile p → c ∈ s := by
  intro s
  induction s with
  | nil => intro c hc; simpa using hc
  | cons a t ih =>
    intro c hc
    by_cases h : p a
    · simp only [List.dropWhile_cons, h, if_true] at hc
      exact List.mem_cons_of_mem a (ih hc)
    · simp only [List.dropWhile_cons, h, Bool.false_eq_true, if_false] at hc
      exact hc

theorem dropWhile_append_of_ne_nil {p : Char → Bool} :
    ∀ {x : Str}, x.dropWhile p ≠ [] →
      ∀ y : Str, (x ++ y).dropWhile p = x.dropWhile p ++ y := by
  intro x
  induction x with
  | nil => intro h; exact absurd rfl h
  | cons c x ih =>
    intro h y
    by_cases hc : p c
    · simp only [List.dropWhile_cons, hc, if_true] at h ⊢
      simpa [hc] using ih h y
    · simp [List.dropWhile_cons, hc]

theorem jsTrim_all_ws {s : Str} (h : ∀ c ∈ s, jsWsChar c = true) :
    jsTrim s = [] := by
  have h1 : s.dropWhile jsWsChar = [] := by
    rw [List.dropWhile_eq_nil_iff]
    exact fun c hc => h c hc
  simp [jsTrim, h1, dropEndWs]

theorem jsTrim_length_le (s : Str) : (jsTrim s).length ≤ s.length := by
  refine le_trans (dropEndWs_length_le _) ?_
  induction s with
  | nil => simp
  | cons c t ih =>
    by_cases h : jsWsChar c
    · simp only [List.dropWhile_cons, h, if_true]
      exact le_trans ih (by simp)
    · simp [List.dropWhile_cons, h]

theorem jsTrim_cons_ws {c : Char} (h : jsWsChar c = true) (s : Str) :
    jsTrim (c :: s) = jsTrim s := by
  simp [jsTrim, List.dropWhile_cons, h]

theorem jsTrim_no_ws {s : Str} (h : ∀ c ∈ s, jsWsChar c = false) :
    jsTrim s = s := by
  have h1 : s.dropWhile jsWsChar = s := by
    cases s with
    | nil => rfl
    | cons c t => simp [List.dropWhile_cons, h c (by simp)]
  rw [jsTrim, h1]
  exact dropEndWs_no_ws h

theorem jsTrim_append_all_ws {x suf : Str}
    (hsuf : ∀ c ∈ suf, jsWsChar c = true) :
    jsTrim (x ++ suf) = jsTrim x := by
  by_cases hx : x.dropWhile jsWsChar = []
  · have hxw : ∀ c ∈ x, jsWsChar c = true := List.dropWhile_eq_nil_iff.mp hx
    have h1 : ∀ c ∈ x ++ suf, jsWsChar c = true := by
      intro c hc
      rcases List.mem_append.mp hc with hc | hc
      · exact hxw c hc
      · exact hsuf c hc
    rw [jsTrim_all_ws h1, jsTrim_all_ws hxw]
  · rw [jsTrim, dropWhile_append_of_ne_nil hx, dropEndWs_append_all_ws hsuf,
      jsTrim]

theorem jsTrim_prepend_all_ws {pre x : Str}
    (hpre : ∀ c ∈ pre, jsWsChar c = true) :
    jsTrim (pre ++ x) = jsTrim x := by
  induction pre with
  | nil => rfl
  | cons c pre ih =>
    rw [List.cons_append, jsTrim_cons_ws (hpre c (by simp)),
      ih (fun d hd => hpre d (by simp [hd]))]

theorem wordsOf_dropWhile_ws {s : Str}
    (hs : ∀ c ∈ s, jsWsChar c = true → wsSN c = true) :
    wordsOf (s.dropWhile jsWsChar) = wordsOf s := by
  induction s with
  | nil => rfl
  | cons c t ih =>
    by_cases h : jsWsChar c
    · simp only [List.dropWhile_cons, h, if_true]
      rw [ih (fun d hd => hs d (by simp [hd])), wordsOf_cons_ws (hs c (by simp) h)]
    · simp [List.dropWhile_cons, h]

theorem wordsOf_jsTrim {s : Str}
    (hs : ∀ c ∈ s, jsWsChar c = true → wsSN c = true) :
    wordsOf (jsTrim s) = wordsOf s := by
  rw [jsTrim]
  set u := s.dropWhile jsWsChar with hu
  obtain ⟨suf, husuf, hwssuf⟩ := exists_suffix_dropEndWs u
  have hchars : ∀ c ∈ suf, wsSN c = true := by
    intro c hc
    have hcu : c ∈ u := by rw [husuf]; simp [hc]
    exact hs c (mem_of_mem_dropWhile hcu) (hwssuf c hc)
  have h2 : wordsOf u = wordsOf (dropEndWs u) := by
    conv_lhs => rw [husuf]
    exact wordsOf_append_all_ws hchars
  rw [← h2, hu]
  exact wordsOf_dropWhile_ws hs

/-! ### Helper lemmas: the greedy wrap loop -/

theorem consHeadG_ne_nil (w : Str) (G : List (List Str)) :
    consHeadG w G ≠ [] := by
  cases G <;> simp [consHeadG]

theorem greedyGroups_exists_cons (maxChars : Nat) (ws : List Str) (cll : Nat) :
    ∃ g gs, greedyGroups maxChars ws cll = g :: gs := by
  cases ws with
  | nil => exact ⟨[], [], rfl⟩
  | cons w ws =>
    by_cases h : maxChars < cll + w.length + 1 ∧ 0 < cll
    · exact ⟨[], consHeadG w (greedyGroups maxChars ws (w.length + 1)),
        by simp [greedyGroups, h]⟩
    · rcases hG : greedyGroups maxChars ws (cll + w.length + 1) with _ | ⟨g, gs⟩
      · exact ⟨[w], [], by simp [greedyGroups, h, hG, consHeadG]⟩
      · exact ⟨w :: g, gs, by simp [greedyGroups, h, hG, consHeadG]⟩

theorem renderGroups_consHeadG (w : Str) {G : List (List Str)} (hG : G ≠ []) :
    renderGroups (consHeadG w G) = w ++ ' ' :: renderGroups G := by
  cases G with
  | nil => exact absurd rfl hG
  | cons g gs =>
    cases gs with
    | nil => simp [renderGroups, consHeadG, intercalateCh, lineRender]
    | cons g2 gs2 => simp [renderGroups, consHeadG, intercalateCh, lineRender]

theorem renderGroups_nil_cons {G : List (List Str)} (hG : G ≠ []) :
    renderGroups ([] :: G) = '\n' :: renderGroups G := by
  cases G with
  | nil => exact absurd rfl hG
  | cons g gs => simp [renderGroups, intercalateCh, lineRender]

theorem wrapLatinLoop_eq_render (maxChars : Nat) :
    ∀ (ws : List Str) (cll : Nat),
      Server.wrapLatinLoop maxChars ws cll
        = renderGroups (greedyGroups maxChars ws cll) := by
  intro ws
  induction ws with
  | nil =>
    intro cll
    simp [Server.wrapLatinLoop, greedyGroups, renderGroups, intercalateCh,
      lineRender]
  | cons w ws ih =>
    intro cll
    by_cases h : maxChars < cll + w.length + 1 ∧ 0 < cll
    · simp only [Server.wrapLatinLoop, greedyGroups]
      rw [if_pos h, if_pos h]
      rw [ih, renderGroups_nil_cons (consHeadG_ne_nil _ _),
        renderGroups_consHeadG w (by
          obtain ⟨g, gs, hG⟩ := greedyGroups_exists_cons maxChars ws (w.length + 1)
          simp [hG])]
    · simp only [Server.wrapLatinLoop, greedyGroups]
      rw [if_neg h, if_neg h]
      rw [ih, renderGroups_consHeadG w (by
        obtain ⟨g, gs, hG⟩ := greedyGroups_exists_cons maxChars ws (cll + w.length + 1)
        simp [hG])]

theorem wordsOf_wrapLatinLoop (maxChars : Nat) :
    ∀ (ws : List Str) (cll : Nat),
      wordsOf (Server.wrapLatinLoop maxChars ws cll) = (ws.map wordsOf).flatten := by
  intro ws
  induction ws with
  | nil => intro cll; rfl
  | cons w ws ih =>
    intro cll
    by_cases h : maxChars < cll + w.length + 1 ∧ 0 < cll
    · simp only [Server.wrapLatinLoop]
      rw [if_pos h, wordsOf_cons_ws (by decide), wordsOf_append_sep (by decide), ih]
      simp
    · simp only [Server.wrapLatinLoop]
      rw [if_neg h, wordsOf_append_sep (by decide), ih]
      simp

theorem wordsOf_intercalate_sep {sep : Char} (h : wsSN sep = true) :
    ∀ xs : List Str, wordsOf (intercalateCh sep xs) = (xs.map wordsOf).flatten := by
  intro xs
  induction xs with
  | nil => rfl
  | cons x xs ih =>
    cases xs with
    | nil => simp [intercalateCh]
    | cons y ys =>
      have hx : intercalateCh sep (x :: y :: ys)
          = x ++ sep :: intercalateCh sep (y :: ys) := rfl
      rw [hx, wordsOf_append_sep h, ih]
      simp

theorem wordsOf_eq_join_splitSpace (t : Str) :
    wordsOf t = ((splitOnP (fun a => a == ' ') t).map wordsOf).flatten := by
  conv_lhs => rw [← intercalateCh_splitOnChar ' ' t]
  exact wordsOf_intercalate_sep (by decide) _

theorem wordsOf_eq_join_splitNl (t : Str) :
    wordsOf t = ((splitOnP (fun a => a == '\n') t).map wordsOf).flatten := by
  conv_lhs => rw [← intercalateCh_splitOnChar '\n' t]
  exact wordsOf_intercalate_sep (by decide) _

theorem chars_wrapLatinLoop (maxChars : Nat) :
    ∀ {ws : List Str} {cll : Nat} {c : Char},
      c ∈ Server.wrapLatinLoop maxChars ws cll →
        c = ' ' ∨ c = '\n' ∨ ∃ w ∈ ws, c ∈ w := by
  intro ws
  induction ws with
  | nil => intro cll c hc; simp [Server.wrapLatinLoop] at hc
  | cons w ws ih =>
    intro cll c hc
    by_cases h : maxChars < cll + w.length + 1 ∧ 0 < cll
    · simp only [Server.wrapLatinLoop] at hc
      rw [if_pos h] at hc
      rcases List.mem_cons.mp hc with rfl | hc
      · exact Or.inr (Or.inl rfl)
      rcases List.mem_append.mp hc with hc | hc
      · exact Or.inr (Or.inr ⟨w, by simp, hc⟩)
      rcases List.mem_cons.mp hc with rfl | hc
      · exact Or.inl rfl
      · rcases ih hc with h1 | h1 | ⟨w', hw', hcw'⟩
        · exact Or.inl h1
        · exact Or.inr (Or.inl h1)
        · exact Or.inr (Or.inr ⟨w', by simp [hw'], hcw'⟩)
    · simp only [Server.wrapLatinLoop] at hc
      rw [if_neg h] at hc
      rcases List.mem_append.mp hc with hc | hc
      · exact Or.inr (Or.inr ⟨w, by simp, hc⟩)
      rcases List.mem_cons.mp hc with rfl | hc
      · exact Or.inl rfl
      · rcases ih hc with h1 | h1 | ⟨w', hw', hcw'⟩
        · exact Or.inl h1
        · exact Or.inr (Or.inl h1)
        · exact Or.inr (Or.inr ⟨w', by simp [hw'], hcw'⟩)

theorem lineRender_length (g : List Str) :
    (lineRender g).length = sumLen g := by
  induction g with
  | nil => rfl
  | cons w g ih => simp [lineRender, sumLen, ih]; omega

theorem greedyGroups_invariant (maxChars : Nat) :
    ∀ (ws : List Str) (cll : Nat),
      ∃ g gs, greedyGroups maxChars ws cll = g :: gs ∧
        (cll + sumLen g ≤ maxChars ∨ (0 < cll ∧ g = []) ∨
          (cll = 0 ∧ ∃ w, g = [w] ∧ maxChars < w.length + 1)) ∧
        ∀ g' ∈ gs, FreshGroupOK maxChars g' := by
  intro ws
  induction ws with
  | nil =>
    intro cll
    refine ⟨[], [], rfl, ?_, by simp⟩
    by_cases h : cll + sumLen [] ≤ maxChars
    · exact Or.inl h
    · exact Or.inr (Or.inl ⟨by simp [sumLen] at h; omega, rfl⟩)
  | cons w ws ih =>
    intro cll
    by_cases hbr : maxChars < cll + w.length + 1 ∧ 0 < cll
    · obtain ⟨g, gs, hG, hA, hB⟩ := ih (w.length + 1)
      refine ⟨[], consHeadG w (g :: gs),
        by simp only [greedyGroups]; rw [if_pos hbr, hG], ?_, ?_⟩
      · exact Or.inr (Or.inl ⟨hbr.2, rfl⟩)
      · intro g' hg'
        simp only [consHeadG] at hg'
        rcases List.mem_cons.mp hg' with hg' | hg'
        · subst hg'
          rcases hA with hA | hA | hA
          · left; simp only [sumLen]; omega
          · rcases hA with ⟨_, hge⟩
            subst hge
            by_cases hw : w.length + 1 ≤ maxChars
            · left; simp [sumLen]; omega
            · right; exact ⟨w, rfl, by omega⟩
          · exact absurd hA.1 (by omega)
        · exact hB g' hg'
    · obtain ⟨g, gs, hG, hA, hB⟩ := ih (cll + w.length + 1)
      refine ⟨w :: g, gs,
        by simp only [greedyGroups]; rw [if_neg hbr, hG]; rfl, ?_, hB⟩
      rcases hA with hA | hA | hA
      · left; simp only [sumLen]; omega
      · rcases hA with ⟨_, hge⟩
        subst hge
        by_cases hle : cll + w.length + 1 ≤ maxChars
        · left; simp only [sumLen]; omega
        · have hmax : maxChars < cll + w.length + 1 := by omega
          have hcll : cll = 0 := by
            by_contra hc
            exact hbr ⟨hmax, by omega⟩
          exact Or.inr (Or.inr ⟨hcll, w, rfl, by omega⟩)
      · exact absurd hA.1 (by omega)

theorem greedyGroups_words_subset (maxChars : Nat) :
    ∀ (ws : List Str) (cll : Nat) (g : List Str) (w : Str),
      g ∈ greedyGroups maxChars ws cll → w ∈ g → w ∈ ws := by
  intro ws
  induction ws with
  | nil =>
    intro cll g w hg hw
    simp [greedyGroups] at hg
    simp [hg] at hw
  | cons w0 ws ih =>
    intro cll g w hg hw
    obtain ⟨g1, gs1, hG⟩ := greedyGroups_exists_cons maxChars ws (w0.length + 1)
    obtain ⟨g2, gs2, hG2⟩ := greedyGroups_exists_cons maxChars ws (cll + w0.length + 1)
    by_cases hbr : maxChars < cll + w0.length + 1 ∧ 0 < cll
    · simp only [greedyGroups] at hg
      rw [if_pos hbr, hG] at hg
      simp only [consHeadG] at hg
      rcases List.mem_cons.mp hg with rfl | hg
      · simp at hw
      rcases List.mem_cons.mp hg with rfl | hg
      · rcases List.mem_cons.mp hw with rfl | hw
        · simp
        · exact List.mem_cons_of_mem w0
            (ih (w0.length + 1) g1 w (by simp [hG]) hw)
      · exact List.mem_cons_of_mem w0
          (ih (w0.length + 1) g w (by simp [hG, hg]) hw)
    · simp only [greedyGroups] at hg
      rw [if_neg hbr, hG2] at hg
      simp only [consHeadG] at hg
      rcases List.mem_cons.mp hg with rfl | hg
      · rcases List.mem_cons.mp hw with rfl | hw
        · simp
        · exact List.mem_cons_of_mem w0
            (ih (cll + w0.length + 1) g2 w (by simp [hG2]) hw)
      · exact List.mem_cons_of_mem w0
          (ih (cll + w0.length + 1) g w (by simp [hG2, hg]) hw)

/-! ### Helper lemmas: line fragments and the per-line property -/

theorem splitOnP_append_nonsep (p : Char → Bool) {c : Char} (hc : p c = false) :
    ∀ x : Str, splitOnP p (x ++ [c]) = appendLast c (splitOnP p x) := by
  intro x
  induction x with
  | nil => simp [splitOnP, hc, consHead, appendLast]
  | cons a x ih =>
    obtain ⟨w, ws, hw⟩ := splitOnP_exists_cons p x
    by_cases h : p a
    · have h1 : splitOnP p ((a :: x) ++ [c]) = [] :: splitOnP p (x ++ [c]) := by
        simp [splitOnP, h]
      have h2 : splitOnP p (a :: x) = [] :: splitOnP p x := by
        simp [splitOnP, h]
      rw [h1, h2, ih, hw]
      simp [appendLast]
    · have h1 : splitOnP p ((a :: x) ++ [c])
          = consHead a (splitOnP p (x ++ [c])) := by
        simp [splitOnP, h]
      have h2 : splitOnP p (a :: x) = consHead a (splitOnP p x) := by
        simp [splitOnP, h]
      rw [h1, h2, ih, hw]
      cases ws with
      | nil => simp [appendLast, consHead]
      | cons v vs => simp [appendLast, consHead]

theorem mem_appendLast {c : Char} :
    ∀ {xs : List Str} {l : Str}, l ∈ appendLast c xs → xs ≠ [] →
      ∃ l0 ∈ xs, l = l0 ∨ l = l0 ++ [c] := by
  intro xs
  induction xs with
  | nil => intro l _ h; exact absurd rfl h
  | cons x xs ih =>
    intro l hl _
    cases xs with
    | nil =>
      simp [appendLast] at hl
      exact ⟨x, by simp, Or.inr hl⟩
    | cons y ys =>
      simp only [appendLast] at hl
      rcases List.mem_cons.mp hl with rfl | hl
      · exact ⟨l, by simp, Or.inl rfl⟩
      · obtain ⟨l0, hl0, hcase⟩ := ih hl (by simp)
        exact ⟨l0, by simp [hl0], hcase⟩

theorem wsSN_false_of_jsWsChar_false {c : Char} (h : jsWsChar c = false) :
    wsSN c = false := by
  by_contra hc
  rw [Bool.not_eq_false] at hc
  rw [wsSN_jsWsChar hc] at h
  exact absurd h (by simp)

theorem lines_of_group_ok (maxChars : Nat) {g : List Str}
    (hok : FreshGroupOK maxChars g) (hw : ∀ w ∈ g, WordOK w) :
    ∀ l ∈ splitOnP (fun a => a == '\n') (lineRender g), LineOK maxChars l := by
  rcases hok with hok | ⟨w, hg, _⟩
  · intro l hl
    left
    have h1 : l.length ≤ (lineRender g).length := length_le_of_mem_splitOnP _ hl
    have h2 := jsTrim_length_le l
    rw [lineRender_length] at h1
    omega
  · subst hg
    intro l hl
    have hr : lineRender [w] = w ++ [' '] := by simp [lineRender]
    rw [hr, splitOnP_append_nonsep _ (by decide) w] at hl
    obtain ⟨w0, hw0mem, hcase⟩ := mem_appendLast hl (by
      obtain ⟨a, as, ha⟩ := splitOnP_exists_cons (fun a => a == '\n') w
      simp [ha])
    have hfrag : ∀ c ∈ w0, jsWsChar c = false := by
      intro c hc
      have hcw : c ∈ w := mem_of_mem_mem_splitOnP _ hw0mem hc
      have hnl : (c == '\n') = false := no_sep_of_mem_splitOnP _ hw0mem hc
      have hWok := hw w (by simp) c hcw
      by_contra hjs
      rw [Bool.not_eq_false] at hjs
      have := hWok.2 hjs
      rw [this] at hnl
      exact absurd hnl (by simp)
    have hsufws : ∀ c ∈ ([' '] : Str), jsWsChar c = true := by
      intro c hc; simp at hc; subst hc; decide
    by_cases hlen : w0.length ≤ maxChars
    · left
      rcases hcase with rfl | rfl
      · rw [jsTrim_no_ws hfrag]; exact hlen
      · rw [jsTrim_append_all_ws hsufws, jsTrim_no_ws hfrag]; exact hlen
    · right
      have hne : w0 ≠ [] := by
        intro h0; rw [h0] at hlen; simp at hlen
      have hwords : wordsOf w0 = [w0] :=
        wordsOf_no_ws (fun c hc => wsSN_false_of_jsWsChar_false (hfrag c hc)) hne
      refine ⟨w0, ?_, by omega⟩
      rcases hcase with rfl | rfl
      · exact hwords
      · rw [wordsOf_append_ws (by decide)]; exact hwords

theorem lines_renderGroups_ok (maxChars : Nat) :
    ∀ {Gs : List (List Str)},
      (∀ g ∈ Gs, FreshGroupOK maxChars g) →
      (∀ g ∈ Gs, ∀ w ∈ g, WordOK w) →
      ∀ l ∈ splitOnP (fun a => a == '\n') (renderGroups Gs), LineOK maxChars l := by
  intro Gs
  induction Gs with
  | nil =>
    intro _ _ l hl
    simp [renderGroups, intercalateCh, splitOnP] at hl
    left
    simp [hl, jsTrim, dropEndWs]
  | cons g gs ih =>
    intro hok hwords l hl
    cases gs with
    | nil =>
      have hr : renderGroups [g] = lineRender g := by
        simp [renderGroups, intercalateCh]
      rw [hr] at hl
      exact lines_of_group_ok maxChars (hok g (by simp))
        (fun w hw => hwords g (by simp) w hw) l hl
    | cons g2 gs2 =>
      have hr : renderGroups (g :: g2 :: gs2)
          = lineRender g ++ '\n' :: renderGroups (g2 :: gs2) := by
        simp [renderGroups, intercalateCh]
      rw [hr, splitOnP_append_sep _ (by decide)] at hl
      rcases List.mem_append.mp hl with hl | hl
      · exact lines_of_group_ok maxChars (hok g (by simp))
          (fun w hw => hwords g (by simp) w hw) l hl
      · exact ih (fun g' hg' => hok g' (by simp [hg']))
          (fun g' hg' w hw => hwords g' (by simp [hg']) w hw) l hl

/-! ### Helper lemmas: lines survive trimming -/

theorem tokens_dropWhile_ws (s : Str) :
    ∀ l ∈ splitOnP (fun a => a == '\n') (s.dropWhile jsWsChar),
      ∃ l' ∈ splitOnP (fun a => a == '\n') s,
        ∃ pre, l' = pre ++ l ∧ ∀ c ∈ pre, jsWsChar c = true := by
  induction s with
  | nil =>
    intro l hl
    exact ⟨l, hl, [], rfl, by simp⟩
  | cons c s ih =>
    intro l hl
    by_cases h : jsWsChar c
    · rw [List.dropWhile_cons, if_pos h] at hl
      obtain ⟨l', hmem, pre, hpre, hprews⟩ := ih l hl
      by_cases hnl : c = '\n'
      · subst hnl
        refine ⟨l', ?_, pre, hpre, hprews⟩
        have hsplit : splitOnP (fun a => a == '\n') ('\n' :: s)
            = [] :: splitOnP (fun a => a == '\n') s := by
          simp [splitOnP]
        rw [hsplit]
        exact List.mem_cons_of_mem _ hmem
      · obtain ⟨w, ws', hw⟩ := splitOnP_exists_cons (fun a => a == '\n') s
        have hb : (c == '\n') = false := by simp [hnl]
        have hsplit : splitOnP (fun a => a == '\n') (c :: s)
            = (c :: w) :: ws' := by
          simp [splitOnP, hb, hw, consHead]
        rw [hw] at hmem
        rcases List.mem_cons.mp hmem with rfl | hmem2
        · refine ⟨c :: l', by rw [hsplit]; simp [hpre], c :: pre, by simp [hpre], ?_⟩
          intro d hd
          rcases List.mem_cons.mp hd with rfl | hd
          · exact h
          · exact hprews d hd
        · exact ⟨l', by rw [hsplit]; exact List.mem_cons_of_mem _ hmem2,
            pre, hpre, hprews⟩
    · rw [List.dropWhile_cons, if_neg (by simp [h])] at hl
      exact ⟨l, hl, [], rfl, by simp⟩

theorem tokens_dropEndWs (s : Str) :
    ∃ hd rd hs rs suf0,
      splitOnP (fun a => a == '\n') (dropEndWs s) = hd :: rd ∧
      splitOnP (fun a => a == '\n') s = hs :: rs ∧
      hs = hd ++ suf0 ∧ (∀ c ∈ suf0, jsWsChar c = true) ∧
      (∀ l ∈ rd, ∃ l' ∈ rs, ∃ suf, l' = l ++ suf ∧ ∀ c ∈ suf, jsWsChar c = true) := by
  induction s with
  | nil =>
    exact ⟨[], [], [], [], [], rfl, rfl, rfl, by simp, by simp⟩
  | cons c s ih =>
    obtain ⟨hd, rd, hs, rs, suf0, h1, h2, h3, h4, h5⟩ := ih
    by_cases hcase : (dropEndWs s).isEmpty && jsWsChar c
    · have hnil : dropEndWs (c :: s) = [] := by
        simp only [dropEndWs]
        rw [if_pos hcase]
      obtain ⟨hs', rs', hw'⟩ := splitOnP_exists_cons (fun a => a == '\n') (c :: s)
      refine ⟨[], [], hs', rs', hs', by rw [hnil]; rfl, hw', rfl, ?_, by simp⟩
      intro d hd'
      have hall : ∀ e ∈ c :: s, jsWsChar e = true := by
        intro e he
        rcases List.mem_cons.mp he with rfl | he
        · exact (Bool.and_eq_true_iff.mp hcase).2
        · exact all_ws_of_dropEndWs_nil
            (by simpa [List.isEmpty_iff] using (Bool.and_eq_true_iff.mp hcase).1)
            e he
      have hmem0 : hs' ∈ splitOnP (fun a => a == '\n') (c :: s) := by
        rw [hw']
        exact List.mem_cons_self _ _
      exact hall d (mem_of_mem_mem_splitOnP _ hmem0 hd')
    · have hkeep : dropEndWs (c :: s) = c :: dropEndWs s := by
        simp only [dropEndWs]
        rw [if_neg (by simpa using hcase)]
      by_cases hnl : c = '\n'
      · subst hnl
        refine ⟨[], hd :: rd, [], hs :: rs, [], ?_, ?_, rfl, by simp, ?_⟩
        · rw [hkeep]; simp [splitOnP, h1]
        · simp [splitOnP, h2]
        · intro l hl
          rcases List.mem_cons.mp hl with rfl | hl
          · exact ⟨hs, by simp, suf0, h3, h4⟩
          · obtain ⟨l', hl', suf, hsuf, hsufws⟩ := h5 l hl
            exact ⟨l', by simp [hl'], suf, hsuf, hsufws⟩
      · have hb : (c == '\n') = false := by simp [hnl]
        refine ⟨c :: hd, rd, c :: hs, rs, suf0, ?_, ?_, by simp [h3], h4, h5⟩
        · rw [hkeep]; simp [splitOnP, hb, h1, consHead]
        · simp [splitOnP, hb, h2, consHead]

theorem tokens_jsTrim (s : Str) :
    ∀ l ∈ splitOnP (fun a => a == '\n') (jsTrim s),
      ∃ l' ∈ splitOnP (fun a => a == '\n') s,
        ∃ pre suf, l' = pre ++ l ++ suf ∧
          (∀ c ∈ pre, jsWsChar c = true) ∧ (∀ c ∈ suf, jsWsChar c = true) := by
  intro l hl
  rw [jsTrim] at hl
  obtain ⟨hd, rd, hs, rs, suf0, h1, h2, h3, h4, h5⟩ :=
    tokens_dropEndWs (s.dropWhile jsWsChar)
  rw [h1] at hl
  have hmid : ∃ l1 ∈ splitOnP (fun a => a == '\n') (s.dropWhile jsWsChar),
      ∃ suf, l1 = l ++ suf ∧ ∀ c ∈ suf, jsWsChar c = true := by
    rcases List.mem_cons.mp hl with rfl | hl2
    · exact ⟨hs, by simp [h2], suf0, h3, h4⟩
    · obtain ⟨l', hl', suf, hsuf, hsufws⟩ := h5 l hl2
      exact ⟨l', by simp [h2, hl'], suf, hsuf, hsufws⟩
  obtain ⟨l1, hl1, suf, hsuf, hsufws⟩ := hmid
  obtain ⟨l', hl', pre, hpre, hprews⟩ := tokens_dropWhile_ws s l1 hl1
  exact ⟨l', hl', pre, suf, by rw [hpre, hsuf]; simp, hprews, hsufws⟩

theorem LineOK_of_flanked (maxChars : Nat) {l pre suf l' : Str}
    (h : l' = pre ++ l ++ suf)
    (hpre : ∀ c ∈ pre, wsSN c = true) (hsuf : ∀ c ∈ suf, wsSN c = true)
    (hok : LineOK maxChars l') : LineOK maxChars l := by
  have htrim : jsTrim l' = jsTrim l := by
    rw [h, List.append_assoc,
      jsTrim_prepend_all_ws (fun c hc => wsSN_jsWsChar (hpre c hc)),
      jsTrim_append_all_ws (fun c hc => wsSN_jsWsChar (hsuf c hc))]
  have hwords : wordsOf l' = wordsOf l := by
    rw [h, List.append_assoc, wordsOf_prepend_all_ws hpre,
      wordsOf_append_all_ws hsuf]
  rcases hok with hok | ⟨w, hw, hlong⟩
  · left; rw [← htrim]; exact hok
  · right; exact ⟨w, by rw [← hwords]; exact hw, hlong⟩

/-! ### Claim C8 -/

/-- C8: on space/newline text with no CJK characters (the word-wrapping
branch of `wrapText`), the wrapper splits the input into words and packs
them greedily; it never splits a word across lines — concatenating the
word sequences of the output lines recovers the input's word sequence —
and every output line either fits the budget after trimming or consists of
exactly one word longer than the budget (a single over-long word occupies
a line by itself). -/
theorem c8_wrap_never_splits_words (t : Str) (maxChars : Nat)
    (hcjk : ∀ c ∈ t, Server.isCJKchar c = false)
    (hws : ∀ c ∈ t, jsWsChar c = true → wsSN c = true) :
    wordsOf t =
      ((splitOnP (fun a => a == '\n') (Server.wrapText t maxChars)).map
        wordsOf).flatten ∧
    ∀ l ∈ splitOnP (fun a => a == '\n') (Server.wrapText t maxChars),
      (jsTrim l).length ≤ maxChars ∨ ∃ w, wordsOf l = [w] ∧ maxChars < w.length := by
  by_cases ht : t = []
  · subst ht
    have hwrap : Server.wrapText [] maxChars = [] := by
      simp [Server.wrapText]
    rw [hwrap]
    constructor
    · rfl
    · intro l hl
      simp [splitOnP] at hl
      left
      simp [hl, jsTrim, dropEndWs]
  · have hfilter : List.filter Server.isCJKchar t = [] := by
      rw [List.filter_eq_nil]
      intro a ha
      simp [hcjk a ha]
    have hbranch : Server.wrapText t maxChars
        = jsTrim (Server.wrapLatinLoop maxChars
            (splitOnP (fun a => a == ' ') t) 0) := by
      unfold Server.wrapText
      rw [if_neg ht, hfilter]
      simp
    have hwordchars : ∀ w ∈ splitOnP (fun a => a == ' ') t, ∀ c ∈ w, c ∈ t :=
      fun w hw c hc => mem_of_mem_mem_splitOnP _ hw hc
    have hrawchar : ∀ c ∈ Server.wrapLatinLoop maxChars
        (splitOnP (fun a => a == ' ') t) 0,
        jsWsChar c = true → wsSN c = true := by
      intro c hc hjs
      rcases chars_wrapLatinLoop maxChars hc with rfl | rfl | ⟨w, hwmem, hcw⟩
      · decide
      · decide
      · exact hws c (hwordchars w hwmem c hcw) hjs
    constructor
    · rw [hbranch,
        ← wordsOf_eq_join_splitNl
          (jsTrim (Server.wrapLatinLoop maxChars
            (splitOnP (fun a => a == ' ') t) 0)),
        wordsOf_jsTrim hrawchar, wordsOf_wrapLatinLoop]
      exact wordsOf_eq_join_splitSpace t
    · intro l hl
      rw [hbranch] at hl
      obtain ⟨l', hl'mem, pre, suf, heq, hprews, hsufws⟩ :=
        tokens_jsTrim (Server.wrapLatinLoop maxChars
          (splitOnP (fun a => a == ' ') t) 0) l hl
      obtain ⟨g0, gs0, hG, hA, hB⟩ :=
        greedyGroups_invariant maxChars (splitOnP (fun a => a == ' ') t) 0
      have hokAll : ∀ g ∈ greedyGroups maxChars
          (splitOnP (fun a => a == ' ') t) 0, FreshGroupOK maxChars g := by
        intro g hg
        rw [hG] at hg
        rcases List.mem_cons.mp hg with rfl | hg
        · rcases hA with hA | hA | hA
          · exact Or.inl (by omega)
          · exact absurd hA.1 (by omega)
          · exact Or.inr hA.2
        · exact hB g hg
      have hwordsOK : ∀ g ∈ greedyGroups maxChars
          (splitOnP (fun a => a == ' ') t) 0, ∀ w ∈ g, WordOK w := by
        intro g hg w hwg c hcw
        have hwmem : w ∈ splitOnP (fun a => a == ' ') t :=
          greedyGroups_words_subset maxChars _ 0 g w hg hwg
        have hct : c ∈ t := hwordchars w hwmem c hcw
        have hnospace : (c == ' ') = false := no_sep_of_mem_splitOnP _ hwmem hcw
        constructor
        · intro hce
          rw [hce] at hnospace
          exact absurd hnospace (by simp)
        · intro hjs
          rcases Bool.or_eq_true_iff.mp (hws c hct hjs) with h1 | h1
          · exact absurd h1 (by simp [hnospace])
          · exact eq_of_beq h1
      have hlineok : LineOK maxChars l' := by
        refine lines_renderGroups_ok maxChars hokAll hwordsOK l' ?_
        rw [← wrapLatinLoop_eq_render]
        exact hl'mem
      have hl'chars : ∀ c ∈ l', jsWsChar c = true → wsSN c = true := by
        intro c hc
        exact hrawchar c (mem_of_mem_mem_splitOnP _ hl'mem hc)
      have hprews' : ∀ c ∈ pre, wsSN c = true := by
        intro c hc
        exact hl'chars c (by rw [heq]; simp [hc]) (hprews c hc)
      have hsufws' : ∀ c ∈ suf, wsSN c = true := by
        intro c hc
        exact hl'chars c (by rw [heq]; simp [hc]) (hsufws c hc)
      exact LineOK_of_flanked maxChars heq hprews' hsufws' hlineok

/-- C8 witness: on the concrete input "aa bb" with budget 4, the wrapper's
output lines carry exactly the original word sequence. -/
theorem c8_witness :
    wordsOf ("aa bb".toList) =
      ((splitOnP (fun a => a == '\n')
        (Server.wrapText ("aa bb".toList) 4)).map wordsOf).flatten :=
  (c8_wrap_never_splits_words ("aa bb".toList) 4 (by decide) (by decide)).1

/-! ### Claim C1 and claim C2 -/

/-- C1: the round-trip law `engineParse (escapeLiteral s) = s` fails on
the code.  Escaping the one-character string ":" yields the payload
`\\:`; the engine strips the surrounding quotes at the graph level
(leaving the payload exposed), the option level collapses `\\` to `\` and
then stops at the now-unescaped colon, and expansion keeps the lone
backslash — so the parsed text is `\`, not `:`. -/
theorem c1_roundtrip_fails_on_colon :
    engineParse (Server.escapeForDrawtext [':']) = ['\\'] ∧
      engineParse (Server.escapeForDrawtext [':']) ≠ [':'] := by
  decide

/-- C2 counterexample: on the input `[` the code's output differs from the
result of the four substitutions the claim enumerates — the code also
escapes `[`, `]`, `,` and `;`. -/
theorem c2_cex_bracket_not_four_passes :
    Server.escapeForDrawtext ['['] ≠ fourPassEscape ['['] := by
  decide

/-- C2 (amended): the escape function equals a single character-wise pass
applying its replacements in the exact source precedence backslash →
single quote → colon → `[` → `]` → `,` → `;` → newline, each substitution
acting only on characters of the original text, so no character is ever
escaped twice. -/
theorem c2_escape_is_single_pass (t : Str) :
    Server.escapeForDrawtext t = cmap Server.escTable t :=
  Server.escapeForDrawtext_eq_cmap t

/-! ### Helper lemmas: the filter-graph builder -/

theorem jsWsChar_not_CJK {c : Char} (h : jsWsChar c = true) :
    Server.isCJKchar c = false := by
  simp only [jsWsChar, Bool.or_eq_true] at h
  rcases h with ((((h | h) | h) | h) | h) | h <;> rw [eq_of_beq h] <;> decide

theorem wrapText_all_ws {t : Str} (h : ∀ c ∈ t, jsWsChar c = true)
    (maxChars : Nat) : Server.wrapText t maxChars = [] := by
  by_cases ht : t = []
  · subst ht; simp [Server.wrapText]
  · have hfilter : List.filter Server.isCJKchar t = [] := by
      rw [List.filter_eq_nil]
      intro a ha
      simp [jsWsChar_not_CJK (h a ha)]
    unfold Server.wrapText
    rw [if_neg ht, hfilter]
    simp only [List.length_nil, Nat.mul_zero]
    rw [if_neg (by omega)]
    apply jsTrim_all_ws
    intro c hc
    rcases chars_wrapLatinLoop maxChars hc with rfl | rfl | ⟨w, hwmem, hcw⟩
    · decide
    · decide
    · exact h c (mem_of_mem_mem_splitOnP _ hwmem hcw)

theorem captionLines_all_ws {t : Str} (h : ∀ c ∈ t, jsWsChar c = true) :
    Server.captionLines t = [] := by
  unfold Server.captionLines
  rw [wrapText_all_ws h]
  decide

theorem captionLines_ne_nil {t l : Str} (hl : l ∈ Server.captionLines t) :
    l ≠ [] := by
  unfold Server.captionLines at hl
  rw [List.mem_filter] at hl
  intro h0
  rw [h0] at hl
  have := hl.2
  rw [jsTrim_all_ws (by simp)] at this
  simp at this

theorem drawChain_texts (fontSize lineHeight : Nat) :
    ∀ (lines : List Str) (cur : Str) (counter : Nat) (y : Int)
      (p : Server.FilterPart),
      p ∈ (Server.drawChain fontSize lineHeight lines cur counter y).1 →
        ∃ line ∈ lines, p.textOf = Server.escapeForDrawtext line := by
  intro lines
  induction lines with
  | nil => intro cur counter y p hp; simp [Server.drawChain] at hp
  | cons line rest ih =>
    intro cur counter y p hp
    simp only [Server.drawChain] at hp
    rcases List.mem_cons.mp hp with rfl | hp
    · exact ⟨line, by simp, rfl⟩
    · obtain ⟨l, hl, he⟩ := ih _ _ _ p hp
      exact ⟨l, by simp [hl], he⟩

theorem brandingText_ne_nil (pn : Str) : Server.brandingText pn ≠ [] := by
  unfold Server.brandingText
  by_cases h : pn.isEmpty
  · rw [if_pos h]; decide
  · rw [if_neg h]
    intro h0
    have := List.append_eq_nil.mp h0
    exact absurd this.1 (by decide)

theorem wellThreadedB_append (xs : List Server.FilterPart) :
    ∀ (avail : List Str) (ys : List Server.FilterPart),
      Server.wellThreadedB avail (xs ++ ys)
        = (Server.wellThreadedB avail xs &&
            Server.wellThreadedB (Server.availAfter avail xs) ys) := by
  induction xs with
  | nil => intro avail ys; simp [Server.wellThreadedB, Server.availAfter]
  | cons p ps ih =>
    intro avail ys
    simp [Server.wellThreadedB, Server.availAfter, ih, Bool.and_assoc]

theorem mem_availAfter {x : Str} :
    ∀ (ps : List Server.FilterPart) (avail : List Str), x ∈ avail →
      x ∈ Server.availAfter avail ps := by
  intro ps
  induction ps with
  | nil => intro avail h; exact h
  | cons p ps ih => intro avail h; exact ih _ (List.mem_cons_of_mem _ h)

theorem drawChain_threaded (fontSize lineHeight : Nat) :
    ∀ (lines : List Str) (cur : Str) (counter : Nat) (y : Int)
      (avail : List Str), cur ∈ avail →
      Server.wellThreadedB avail
        (Server.drawChain fontSize lineHeight lines cur counter y).1 = true ∧
      (Server.drawChain fontSize lineHeight lines cur counter y).2.1 ∈
        Server.availAfter avail
          (Server.drawChain fontSize lineHeight lines cur counter y).1 := by
  intro lines
  induction lines with
  | nil =>
    intro cur counter y avail h
    exact ⟨rfl, h⟩
  | cons line rest ih =>
    intro cur counter y avail h
    obtain ⟨h1, h2⟩ := ih (Server.natLabel counter) (counter + 1)
      (y + lineHeight) (Server.natLabel counter :: avail)
      (List.mem_cons_self _ _)
    constructor
    · simp only [Server.drawChain, Server.wellThreadedB,
        Server.FilterPart.inputsOf, Server.FilterPart.outputOf,
        Bool.and_eq_true, List.all_cons, List.all_nil, Bool.and_true]
      exact ⟨decide_eq_true h, h1⟩
    · simp only [Server.drawChain, Server.availAfter,
        Server.FilterPart.outputOf]
      exact h2

theorem topChainOf_threaded (fontSize lineHeight : Nat) (topText : Str)
    (avail : List Str) (h : "v1".toList ∈ avail) :
    Server.wellThreadedB avail
      (Server.topChainOf fontSize lineHeight topText).1 = true ∧
    (Server.topChainOf fontSize lineHeight topText).2.1 ∈
      Server.availAfter avail (Server.topChainOf fontSize lineHeight topText).1 := by
  unfold Server.topChainOf
  by_cases htt : topText.isEmpty
  · rw [if_pos htt]; exact ⟨rfl, h⟩
  · rw [if_neg htt]
    exact drawChain_threaded fontSize lineHeight _ _ _ _ avail h

theorem bottomChainOf_threaded (fontSize lineHeight height : Nat)
    (bottomText : Str) (cur : Str) (counter : Nat) (avail : List Str)
    (h : cur ∈ avail) :
    Server.wellThreadedB avail
      (Server.bottomChainOf fontSize lineHeight height bottomText cur counter).1
      = true ∧
    (Server.bottomChainOf fontSize lineHeight height bottomText cur counter).2.1 ∈
      Server.availAfter avail
        (Server.bottomChainOf fontSize lineHeight height bottomText cur counter).1 := by
  unfold Server.bottomChainOf
  by_cases hbt : bottomText.isEmpty
  · rw [if_pos hbt]; exact ⟨rfl, h⟩
  · rw [if_neg hbt]
    exact drawChain_threaded fontSize lineHeight _ _ _ _ avail h

theorem getLast_append_single {α : Type} (a : α) (l : List α) :
    (l ++ [a]).getLast? = some a := by
  rw [List.getLast?_append_cons]
  rfl

/-! ### Claims C3, C4, C9, C10 -/

/-- C3: a caption whose text is empty or whitespace-only yields an empty
caption-line list, and no text-draw stage of any built filter graph ever
carries an empty text literal (top and bottom stages draw lines kept only
when their trim is non-empty, and the branding literal is never empty). -/
theorem c3_no_empty_drawtext :
    (∀ t : Str, (∀ c ∈ t, jsWsChar c = true) → Server.captionLines t = []) ∧
    (∀ (width height ow oh : Nat) (tt bt pn : Str),
      ∀ p ∈ (Server.buildMemeFilter width height ow oh tt bt pn).1,
        p.isDrawtext = true → p.textOf ≠ []) := by
  constructor
  · exact fun t h => captionLines_all_ws h
  · intro width height ow oh tt bt pn p hp hdraw
    have hp2 : p ∈ Server.baseParts width height ow oh ++
        ((Server.topChainOf (Server.fontSizeOf height (Server.maxLinesOf tt bt))
            (Server.fontSizeOf height (Server.maxLinesOf tt bt) + 5) tt).1 ++
          ((Server.bottomChainOf (Server.fontSizeOf height (Server.maxLinesOf tt bt))
              (Server.fontSizeOf height (Server.maxLinesOf tt bt) + 5) height bt
              (Server.topChainOf (Server.fontSizeOf height (Server.maxLinesOf tt bt))
                (Server.fontSizeOf height (Server.maxLinesOf tt bt) + 5) tt).2.1
              (Server.topChainOf (Server.fontSizeOf height (Server.maxLinesOf tt bt))
                (Server.fontSizeOf height (Server.maxLinesOf tt bt) + 5) tt).2.2).1 ++
            [Server.brandingStage height pn
              (Server.bottomChainOf (Server.fontSizeOf height (Server.maxLinesOf tt bt))
                (Server.fontSizeOf height (Server.maxLinesOf tt bt) + 5) height bt
                (Server.topChainOf (Server.fontSizeOf height (Server.maxLinesOf tt bt))
                  (Server.fontSizeOf height (Server.maxLinesOf tt bt) + 5) tt).2.1
                (Server.topChainOf (Server.fontSizeOf height (Server.maxLinesOf tt bt))
                  (Server.fontSizeOf height (Server.maxLinesOf tt bt) + 5) tt).2.2).2.1])) := hp
    rcases List.mem_append.mp hp2 with hb | hp3
    · simp [Server.baseParts] at hb
      rcases hb with rfl | rfl <;> simp [Server.FilterPart.isDrawtext] at hdraw
    rcases List.mem_append.mp hp3 with htop | hp4
    · unfold Server.topChainOf at htop
      by_cases htt : tt.isEmpty
      · rw [if_pos htt] at htop; simp at htop
      · rw [if_neg htt] at htop
        obtain ⟨line, hline, he⟩ := drawChain_texts _ _ _ _ _ _ p htop
        rw [he]
        exact Server.escapeForDrawtext_ne_nil (captionLines_ne_nil hline)
    rcases List.mem_append.mp hp4 with hbot | hbr
    · unfold Server.bottomChainOf at hbot
      by_cases hbt : bt.isEmpty
      · rw [if_pos hbt] at hbot; simp at hbot
      · rw [if_neg hbt] at hbot
        obtain ⟨line, hline, he⟩ := drawChain_texts _ _ _ _ _ _ p hbot
        rw [he]
        exact Server.escapeForDrawtext_ne_nil (captionLines_ne_nil hline)
    · rw [List.mem_singleton] at hbr
      rw [hbr]
      exact Server.escapeForDrawtext_ne_nil (brandingText_ne_nil pn)

/-- C3 witness: the whitespace-only caption " " yields no lines, and the
branding stage built for an all-empty request carries non-empty text. -/
theorem c3_witness :
    Server.captionLines [' '] = [] ∧
    (Server.FilterPart.drawtext ("v1".toList)
      (Server.escapeForDrawtext (Server.brandingText [])) 18 ((1 : Int) - 38)
      ("vout".toList)).textOf ≠ [] :=
  ⟨c3_no_empty_drawtext.1 [' '] (by decide),
   c3_no_empty_drawtext.2 1 1 1 1 [] [] []
     (Server.FilterPart.drawtext ("v1".toList)
       (Server.escapeForDrawtext (Server.brandingText [])) 18 ((1 : Int) - 38)
       ("vout".toList)) (by decide) (by decide)⟩

/-- C4: in every filter graph the builder produces, each stage's input
labels were produced as the output label of an earlier stage or are the
raw input `0:v`, and the final stage's output label is the graph's sink
label `vout`, the label mapped to the output. -/
theorem c4_labels_threaded (width height ow oh : Nat) (tt bt pn : Str) :
    Server.wellThreadedB ["0:v".toList]
      (Server.buildMemeFilter width height ow oh tt bt pn).1 = true ∧
    ((Server.buildMemeFilter width height ow oh tt bt pn).1.getLast?.map
        Server.FilterPart.outputOf)
      = some (Server.buildMemeFilter width height ow oh tt bt pn).2 ∧
    (Server.buildMemeFilter width height ow oh tt bt pn).2 = "vout".toList := by
  set FS := Server.fontSizeOf height (Server.maxLinesOf tt bt) with hFS
  set LH := FS + 5 with hLH
  have hbase : Server.wellThreadedB ["0:v".toList]
      (Server.baseParts width height ow oh) = true := rfl
  have havail : Server.availAfter ["0:v".toList]
      (Server.baseParts width height ow oh)
      = ["v1".toList, "overlay".toList, "0:v".toList] := rfl
  obtain ⟨htop, htopf⟩ := topChainOf_threaded FS LH tt
    ["v1".toList, "overlay".toList, "0:v".toList] (List.mem_cons_self _ _)
  obtain ⟨hbot, hbotf⟩ := bottomChainOf_threaded FS LH height bt
    (Server.topChainOf FS LH tt).2.1 (Server.topChainOf FS LH tt).2.2
    (Server.availAfter ["v1".toList, "overlay".toList, "0:v".toList]
      (Server.topChainOf FS LH tt).1) htopf
  refine ⟨?_, ?_, rfl⟩
  · show Server.wellThreadedB ["0:v".toList]
      (Server.baseParts width height ow oh ++
        ((Server.topChainOf FS LH tt).1 ++
          ((Server.bottomChainOf FS LH height bt
              (Server.topChainOf FS LH tt).2.1
              (Server.topChainOf FS LH tt).2.2).1 ++
            [Server.brandingStage height pn
              (Server.bottomChainOf FS LH height bt
                (Server.topChainOf FS LH tt).2.1
                (Server.topChainOf FS LH tt).2.2).2.1]))) = true
    rw [wellThreadedB_append, Bool.and_eq_true]
    refine ⟨hbase, ?_⟩
    rw [havail, wellThreadedB_append, Bool.and_eq_true]
    refine ⟨htop, ?_⟩
    rw [wellThreadedB_append, Bool.and_eq_true]
    refine ⟨hbot, ?_⟩
    simp only [Server.wellThreadedB, Server.brandingStage,
      Server.FilterPart.inputsOf, List.all_cons, List.all_nil, Bool.and_true,
      decide_eq_true_eq]
    exact hbotf
  · show ((Server.baseParts width height ow oh ++
        ((Server.topChainOf FS LH tt).1 ++
          ((Server.bottomChainOf FS LH height bt
              (Server.topChainOf FS LH tt).2.1
              (Server.topChainOf FS LH tt).2.2).1 ++
            [Server.brandingStage height pn
              (Server.bottomChainOf FS LH height bt
                (Server.topChainOf FS LH tt).2.1
                (Server.topChainOf FS LH tt).2.2).2.1]))).getLast?.map
        Server.FilterPart.outputOf) = some ("vout".toList)
    rw [← List.append_assoc, ← List.append_assoc, getLast_append_single]
    rfl

/-- C9: the computed font size is exactly
`floor(height / (12 + (lineCount - 1) * 2))`, and for a fixed frame height
it is monotonically non-increasing in the line count. -/
theorem c9_fontsize_monotone (height m n : Nat) (h1 : 1 ≤ m) (h2 : m ≤ n) :
    Server.fontSizeOf height n = height / (12 + (n - 1) * 2) ∧
    Server.fontSizeOf height n ≤ Server.fontSizeOf height m := by
  refine ⟨rfl, ?_⟩
  apply Nat.div_le_div_left
  · unfold Server.dynamicDivisor; omega
  · unfold Server.dynamicDivisor; omega

/-- C9 witness: at frame height 720, two lines give font size
`720 / 14 = 51`, no larger than the one-line size `720 / 12 = 60`. -/
theorem c9_witness :
    Server.fontSizeOf 720 2 = 720 / (12 + (2 - 1) * 2) ∧
    Server.fontSizeOf 720 2 ≤ Server.fontSizeOf 720 1 :=
  c9_fontsize_monotone 720 1 2 (by decide) (by decide)

/-- C10: every built graph ends in the branding text-draw stage — its text
is the escape of `luna.fun/memes` (or `luna.fun/memes/<projectName>`),
never empty — with sink label `vout`, which is the label the graph maps to
the output, even when both caption texts are empty. -/
theorem c10_branding_always_last (width height ow oh : Nat) (tt bt pn : Str) :
    (Server.buildMemeFilter width height ow oh tt bt pn).2 = "vout".toList ∧
    Server.escapeForDrawtext (Server.brandingText pn) ≠ [] ∧
    ∃ inp,
      (Server.buildMemeFilter width height ow oh tt bt pn).1.getLast?
        = some (Server.FilterPart.drawtext inp
            (Server.escapeForDrawtext (Server.brandingText pn)) 18
            ((height : Int) - 38) ("vout".toList)) := by
  refine ⟨rfl, Server.escapeForDrawtext_ne_nil (brandingText_ne_nil pn), ?_⟩
  set FS := Server.fontSizeOf height (Server.maxLinesOf tt bt) with hFS
  set LH := FS + 5 with hLH
  refine ⟨(Server.bottomChainOf FS LH height bt
    (Server.topChainOf FS LH tt).2.1 (Server.topChainOf FS LH tt).2.2).2.1, ?_⟩
  show (Server.baseParts width height ow oh ++
      ((Server.topChainOf FS LH tt).1 ++
        ((Server.bottomChainOf FS LH height bt
            (Server.topChainOf FS LH tt).2.1
            (Server.topChainOf FS LH tt).2.2).1 ++
          [Server.brandingStage height pn
            (Server.bottomChainOf FS LH height bt
              (Server.topChainOf FS LH tt).2.1
              (Server.topChainOf FS LH tt).2.2).2.1]))).getLast?
    = some (Server.FilterPart.drawtext
        (Server.bottomChainOf FS LH height bt
          (Server.topChainOf FS LH tt).2.1
          (Server.topChainOf FS LH tt).2.2).2.1
        (Server.escapeForDrawtext (Server.brandingText pn)) 18
        ((height : Int) - 38) ("vout".toList))
  rw [← List.append_assoc, ← List.append_assoc, getLast_append_single]
  rfl

/-! ### Claims C5, C6, C7 -/

/-- C5: with exactly one audio track, `mixVideo` builds a single-input
stage for that track alone — `volume=0.3` when the track is music, a
plain copy when it is dialogue — and never a multi-input mix
(`amerge`/`amix`). -/
theorem c5_single_track_no_mix (hasDialogue hasMusic : Bool)
    (h : hasDialogue ≠ hasMusic) :
    Server.mixVideoFilter hasDialogue hasMusic
      = Server.AudioMix.single (Server.audioLabel 1)
          (if hasMusic then Server.AudioStageOp.volumeOp (3 / 10)
           else Server.AudioStageOp.acopy) ("outa".toList) ∧
    (Server.mixVideoFilter hasDialogue hasMusic).isMultiMix = false := by
  cases hasDialogue <;> cases hasMusic
  · exact absurd rfl h
  · exact ⟨rfl, rfl⟩
  · exact ⟨rfl, rfl⟩
  · exact absurd rfl h

/-- C5 witness: with music as the only track, the graph is the single
volume stage on `[1:a]` and contains no multi-input mix. -/
theorem c5_witness :
    Server.mixVideoFilter false true
      = Server.AudioMix.single (Server.audioLabel 1)
          (if true then Server.AudioStageOp.volumeOp (3 / 10)
           else Server.AudioStageOp.acopy) ("outa".toList) ∧
    (Server.mixVideoFilter false true).isMultiMix = false :=
  c5_single_track_no_mix false true (by decide)

/-- C6 counterexample: the mix duration policy is not configurable by the
caller.  With dialogue and music the emitted `amix` duration is the
constant `longest` for a 10-second music track and for a 60-second one
alike, the builder also always passes the `-shortest` output flag, and the
endpoint's request surface has no `audioMixDurationPolicy` field at all. -/
theorem c6_cex_policy_not_configurable :
    (P001.mixVideo true true 10).amixDuration = some ("longest".toList) ∧
    (P001.mixVideo true true 60).amixDuration = some ("longest".toList) ∧
    ("-shortest".toList) ∈ (P001.mixVideo true true 60).outputOptions ∧
    ("audioMixDurationPolicy".toList) ∉ Server.processVideoRequestFields := by
  refine ⟨rfl, rfl, ?_, by decide⟩
  exact List.mem_cons_of_mem _ (List.mem_cons_of_mem _ (List.mem_cons_of_mem _
    (List.mem_cons_of_mem _ (List.mem_cons_self _ _))))

/-- C6 (amended): when both tracks are present the mix is emitted with the
fixed duration policy `longest` — there is no caller-facing knob — and the
`-shortest` output option is always added as well, so the rendered length
is the video length capped against the mixed audio. -/
theorem c6_amended_policy_constant (d : ℚ) :
    (P001.mixVideo true true d).amixDuration = some ("longest".toList) ∧
    ("-shortest".toList) ∈ (P001.mixVideo true true d).outputOptions := by
  refine ⟨rfl, ?_⟩
  exact List.mem_cons_of_mem _ (List.mem_cons_of_mem _ (List.mem_cons_of_mem _
    (List.mem_cons_of_mem _ (List.mem_cons_self _ _))))

/-- C7 counterexample: for a 1-second music track the fade-out start is
`1 - 2.5 = -1.5`, which is negative — the code does not clamp it to 0 as
the claim states. -/
theorem c7_cex_fadeout_negative :
    (P001.mixVideo true true 1).fadeOutStart = some ((1 : ℚ) - 5 / 2) ∧
    ((1 : ℚ) - 5 / 2) < 0 := by
  refine ⟨rfl, by norm_num⟩

/-- C7 (amended): whenever a music track is present its fade-out start is
exactly `musicDuration - 2.5` with no clamping, so it is negative for
tracks shorter than the 2.5-second fade. -/
theorem c7_amended_no_clamp (hasDialogue : Bool) (d : ℚ) :
    (P001.mixVideo hasDialogue true d).fadeOutStart = some (d - 5 / 2) := by
  cases hasDialogue <;> rfl
